import Mathlib

/-!
Verification of the core claims of the feldera incremental dataflow runtime
against a shallow embedding of its Rust sources.

Each section embeds one subsystem:
* `ZSetMerge`   — `OrdZSet` merging (`src/src/trace/ord/zset_batch.rs`).
* `ZSetAlgebra` — `IndexedZSet::distinct` (`crates/dbsp/src/algebra/zset/mod.rs`).
* `Exchange`    — the N-to-N worker exchange (`crates/dbsp/src/operator/communication/exchange2.rs`).
* `Splitter`    — the streaming input splitter and reader state machine
  (`crates/adapters/src/transport/file.rs`).
* `LayerFile`   — the 64-bit block locator (`crates/feldera-storage/src/file/mod.rs`).

Batches carry 64-bit integer weights (`ZWeight = i64`); weights are embedded as
`Int` (the fuel arithmetic below never approaches the `i64` range, and no
overflowing operation on weights appears in the embedded code paths).
-/

namespace ZSetMerge

/-- Modelled from the spec: the `MergeBuilder::push_merge` implementation for
`OrderedColumnLeaf` that `OrdZSetMerger::work` calls is not under `src/` (only
its caller in `src/src/trace/ord/zset_batch.rs` is).  Per the spec, "Merging is
a mathematical sum: equal keys collapse and weights add.  Weight-zero results
are dropped on seal."  A Z-set batch is a key-sorted list of `(key, weight)`
pairs (the value slot of a Z-set is the unit type); `push_merge` walks both
cursors in ascending key order, copies the smaller key, and on equal keys
pushes the summed weight unless the sum is zero. -/
def pushMerge {K : Type} [LinearOrder K] : List (K × Int) → List (K × Int) → List (K × Int)
  | [], ys => ys
  | x :: xs, [] => x :: xs
  | (k1, w1) :: xs, (k2, w2) :: ys =>
    if k1 < k2 then (k1, w1) :: pushMerge xs ((k2, w2) :: ys)
    else if k2 < k1 then (k2, w2) :: pushMerge ((k1, w1) :: xs) ys
    else if w1 + w2 = 0 then pushMerge xs ys
    else (k1, w1 + w2) :: pushMerge xs ys
  termination_by xs ys => xs.length + ys.length

/-- State for an in-progress merge (`OrdZSetMerger`): the result assembled so
far.  `finished` records whether the source cursors have been exhausted; the
real merger holds the cursors inside the `MergeBuilder`, whose single
`push_merge` call consumes both sources completely, so any later `work` call
pushes zero tuples. -/
structure OrdZSetMerger (K : Type) where
  result : List (K × Int)
  finished : Bool

/-- `OrdZSetMerger::new_merger` — an empty result buffer. -/
def newMerger (K : Type) : OrdZSetMerger K := ⟨[], false⟩

/-- `OrdZSetMerger::work` (zset_batch.rs:267-272): one bounded-progress step.
`*fuel -= push_merge(...) as isize; *fuel = max(*fuel, 1)`.  Returns the
updated merger and the updated fuel. -/
def work {K : Type} [LinearOrder K] (m : OrdZSetMerger K)
    (source1 source2 : List (K × Int)) (fuel : Int) : OrdZSetMerger K × Int :=
  let pushed : List (K × Int) := if m.finished then [] else pushMerge source1 source2
  (⟨m.result ++ pushed, true⟩, max (fuel - pushed.length) 1)

/-- `OrdZSetMerger::done` — seal and return the assembled batch. -/
def done {K : Type} (m : OrdZSetMerger K) : List (K × Int) := m.result

/-- `begin_merge(A, B)` followed by `work` until exhaustion, then `done()`. -/
def mergeBatches {K : Type} [LinearOrder K] (a b : List (K × Int)) : List (K × Int) :=
  done (work (newMerger K) a b 1).1

/-- The weight of key `k` in a batch: the sum of the weights stored at `k`. -/
def weightOf {K : Type} [LinearOrder K] (zs : List (K × Int)) (k : K) : Int :=
  ((zs.filter (fun p => p.1 = k)).map (fun p => p.2)).sum

theorem weightOf_nil {K : Type} [LinearOrder K] (k : K) : weightOf ([] : List (K × Int)) k = 0 :=
  rfl

theorem weightOf_cons {K : Type} [LinearOrder K] (p : K × Int) (zs : List (K × Int)) (k : K) :
    weightOf (p :: zs) k = (if p.1 = k then p.2 else 0) + weightOf zs k := by
  by_cases h : p.1 = k <;> simp [weightOf, h]

theorem pushMerge_weightOf {K : Type} [LinearOrder K] (xs ys : List (K × Int)) (k : K) :
    weightOf (pushMerge xs ys) k = weightOf xs k + weightOf ys k := by
  induction xs, ys using pushMerge.induct with
  | case1 ys => simp [pushMerge, weightOf_nil]
  | case2 x xs => simp [pushMerge, weightOf_nil]
  | case3 k1 w1 xs k2 w2 ys h ih =>
    simp only [pushMerge, if_pos h, weightOf_cons, ih]
    ring
  | case4 k1 w1 xs k2 w2 ys h h2 ih =>
    simp only [pushMerge, if_neg h, if_pos h2, weightOf_cons, ih]
    ring
  | case5 k1 w1 xs k2 w2 ys h h2 h3 ih =>
    have hk : k1 = k2 := le_antisymm (not_lt.mp h2) (not_lt.mp h)
    subst hk
    simp only [pushMerge, if_neg h, if_pos h3, weightOf_cons, ih]
    split <;> omega
  | case6 k1 w1 xs k2 w2 ys h h2 h3 ih =>
    have hk : k1 = k2 := le_antisymm (not_lt.mp h2) (not_lt.mp h)
    subst hk
    simp only [pushMerge, if_neg h, if_neg h3, weightOf_cons, ih]
    split <;> omega

theorem pushMerge_nonzero {K : Type} [LinearOrder K] (xs ys : List (K × Int))
    (hx : ∀ p ∈ xs, p.2 ≠ 0) (hy : ∀ p ∈ ys, p.2 ≠ 0) :
    ∀ p ∈ pushMerge xs ys, p.2 ≠ 0 := by
  induction xs, ys using pushMerge.induct with
  | case1 ys => simpa [pushMerge] using hy
  | case2 x xs => simpa [pushMerge] using hx
  | case3 k1 w1 xs k2 w2 ys h ih =>
    simp only [pushMerge, if_pos h]
    intro p hp
    rcases List.mem_cons.mp hp with rfl | hp
    · exact hx _ (List.mem_cons_self _ _)
    · exact ih (fun q hq => hx q (List.mem_cons_of_mem _ hq)) hy p hp
  | case4 k1 w1 xs k2 w2 ys h h2 ih =>
    simp only [pushMerge, if_neg h, if_pos h2]
    intro p hp
    rcases List.mem_cons.mp hp with rfl | hp
    · exact hy _ (List.mem_cons_self _ _)
    · exact ih hx (fun q hq => hy q (List.mem_cons_of_mem _ hq)) p hp
  | case5 k1 w1 xs k2 w2 ys h h2 h3 ih =>
    simp only [pushMerge, if_neg h, if_neg h2, if_pos h3]
    exact ih (fun q hq => hx q (List.mem_cons_of_mem _ hq))
      (fun q hq => hy q (List.mem_cons_of_mem _ hq))
  | case6 k1 w1 xs k2 w2 ys h h2 h3 ih =>
    simp only [pushMerge, if_neg h, if_neg h2, if_neg h3]
    intro p hp
    rcases List.mem_cons.mp hp with rfl | hp
    · exact h3
    · exact ih (fun q hq => hx q (List.mem_cons_of_mem _ hq))
        (fun q hq => hy q (List.mem_cons_of_mem _ hq)) p hp

/-- C1: for Z-set batches `A` and `B` (whose sealed form carries no zero
weights, per the builder contract), the batch produced by `begin_merge` /
`work` / `done` is the mathematical sum of `A` and `B`: the weight of every
key in the merged batch is the sum of its weights in `A` and in `B`, and no
key with summed weight zero appears in the sealed result. -/
theorem mergeBatches_is_sum {K : Type} [LinearOrder K] (a b : List (K × Int))
    (ha : ∀ p ∈ a, p.2 ≠ 0) (hb : ∀ p ∈ b, p.2 ≠ 0) :
    (∀ k, weightOf (mergeBatches a b) k = weightOf a k + weightOf b k) ∧
      (∀ p ∈ mergeBatches a b, p.2 ≠ 0) := by
  have hres : mergeBatches a b = pushMerge a b := by
    simp [mergeBatches, done, work, newMerger]
  constructor
  · intro k
    rw [hres]
    exact pushMerge_weightOf a b k
  · rw [hres]
    exact pushMerge_nonzero a b ha hb

/-- Witness for C1 at `A = [(1, 2), (2, 1)]`, `B = [(1, -2), (3, 5)]`:
the merged batch drops key 1 (summed weight zero) and keeps keys 2 and 3. -/
theorem mergeBatches_is_sum_witness :
    mergeBatches [((1 : Int), (2 : Int)), (2, 1)] [(1, -2), (3, 5)] = [(2, 1), (3, 5)] ∧
      weightOf (mergeBatches [((1 : Int), (2 : Int)), (2, 1)] [(1, -2), (3, 5)]) 1 = 0 ∧
      (∀ p ∈ mergeBatches [((1 : Int), (2 : Int)), (2, 1)] [(1, -2), (3, 5)], p.2 ≠ 0) := by
  have h := mergeBatches_is_sum [((1 : Int), (2 : Int)), (2, 1)] [(1, -2), (3, 5)]
    (by intro p hp; fin_cases hp <;> decide) (by intro p hp; fin_cases hp <;> decide)
  have he : mergeBatches [((1 : Int), (2 : Int)), (2, 1)] [(1, -2), (3, 5)] = [(2, 1), (3, 5)] := by
    norm_num [mergeBatches, done, work, newMerger, pushMerge]
  refine ⟨he, ?_, h.2⟩
  have := h.1 1
  rw [this]
  rfl

/-- C9: the fuel update of `OrdZSetMerger::work` (zset_batch.rs:268-271).
After any `work` call the fuel equals `max 1 (fuel - pushed)` where `pushed`
is the number of tuples pushed during the call, so fuel never drops below 1. -/
theorem merger_work_fuel {K : Type} [LinearOrder K] (m : OrdZSetMerger K)
    (source1 source2 : List (K × Int)) (fuel : Int) :
    (work m source1 source2 fuel).2 =
        max 1 (fuel - (if m.finished then ([] : List (K × Int))
          else pushMerge source1 source2).length) ∧
      1 ≤ (work m source1 source2 fuel).2 := by
  constructor
  · simp only [work]
    omega
  · simp only [work]
    omega

end ZSetMerge

namespace ZSetAlgebra

/-- Modelled from the spec: the definition of `ZRingValue::ge0` on
`ZWeight = i64` is not under `src/` (only its call site in
`crates/dbsp/src/algebra/zset/mod.rs:153` is).  Per its repository
documentation it tests "greater than or equal to zero"; on the weights of a
sealed batch — which are nonzero by the spec's weight-zero-filtering
invariant — it coincides with "strictly positive". -/
def ge0 (w : Int) : Bool := decide (0 ≤ w)

/-- An indexed Z-set in cursor-enumeration order: `(key, value, weight)`
triples, keys ascending and values ascending within a key.  The claims below
need only the enumeration itself, so the batch is its triple list. -/
abbrev IndexedZSet (K V : Type) := List (K × V × Int)

/-- `IndexedZSet::distinct` (algebra/zset/mod.rs:145-162): walk the cursor;
for every `(key, value)` position whose weight passes `ge0`, push the pair
with weight 1 into a fresh builder; seal the builder. -/
def distinct {K V : Type} (z : IndexedZSet K V) : IndexedZSet K V :=
  z.filterMap (fun t => if ge0 t.2.2 then some (t.1, t.2.1, (1 : Int)) else none)

/-- The spec's description of `distinct`: keep exactly the strictly
positively weighted pairs, each with weight 1. -/
def distinctSpec {K V : Type} (z : IndexedZSet K V) : IndexedZSet K V :=
  z.filterMap (fun t => if 0 < t.2.2 then some (t.1, t.2.1, (1 : Int)) else none)

/-- C2: on any indexed Z-set whose stored weights are nonzero (the batch
invariant: the builder drops weight-zero triples at seal time), `distinct`
emits exactly the pairs of strictly positive total weight, each with weight
exactly 1, and drops every pair whose weight is not strictly positive; in
particular every output weight is 1, so the output is a proper set. -/
theorem distinct_filters_positive {K V : Type} (z : IndexedZSet K V)
    (hz : ∀ t ∈ z, t.2.2 ≠ 0) :
    distinct z = distinctSpec z ∧ ∀ t ∈ distinct z, t.2.2 = 1 := by
  constructor
  · induction z with
    | nil => rfl
    | cons t ts ih =>
      have ht : t.2.2 ≠ 0 := hz t (List.mem_cons_self _ _)
      have htail := ih (fun q hq => hz q (List.mem_cons_of_mem _ hq))
      have hiff : ge0 t.2.2 = true ↔ 0 < t.2.2 := by
        simp only [ge0, decide_eq_true_eq]
        omega
      by_cases hpos : 0 < t.2.2
      · simp [distinct, distinctSpec, hiff.mpr hpos, hpos] at htail ⊢
        exact htail
      · have : ¬ ge0 t.2.2 = true := fun h => hpos (hiff.mp h)
        simp [distinct, distinctSpec, this, hpos] at htail ⊢
        exact htail
  · intro t ht
    simp only [distinct, List.mem_filterMap] at ht
    obtain ⟨a, _, ha⟩ := ht
    split at ha
    · injection ha with ha
      subst ha
      rfl
    · exact absurd ha (by simp)

/-- Witness for C2 at the spec's scenario S3:
`[(1,"a",1), (1,"b",2), (1,"c",-1), (2,"d",1)]` (strings replaced by
numeric value codes 0..3), whose `distinct` is
`[(1,0,1), (1,1,1), (2,3,1)]`. -/
theorem distinct_filters_positive_witness :
    distinct [((1 : Int), (0 : Int), (1 : Int)), (1, 1, 2), (1, 2, -1), (2, 3, 1)] =
        distinctSpec [((1 : Int), (0 : Int), (1 : Int)), (1, 1, 2), (1, 2, -1), (2, 3, 1)] ∧
      distinct [((1 : Int), (0 : Int), (1 : Int)), (1, 1, 2), (1, 2, -1), (2, 3, 1)] =
        [(1, 0, 1), (1, 1, 1), (2, 3, 1)] := by
  have h := distinct_filters_positive
    [((1 : Int), (0 : Int), (1 : Int)), (1, 1, 2), (1, 2, -1), (2, 3, 1)]
    (by intro t ht
        simp only [List.mem_cons, List.not_mem_nil, or_false] at ht
        rcases ht with rfl | rfl | rfl | rfl <;> decide)
  exact ⟨h.1, by decide⟩

end ZSetAlgebra

namespace Exchange

/-- The shared state of an `Exchange` instance (exchange2.rs:186-212), for
`npeers` communicating peers:

* `mailboxes` — the flat vector of `npeers²` option cells; the slot of the
  `(sender, receiver)` pair lives at index `sender * npeers + receiver`
  (`Exchange::mailbox_index`).  Indices are total functions here; the code
  only ever touches indices below `npeers²`.
* `receiverCounters` — per-receiver count of messages delivered and not yet
  consumed in the current round (`AtomicUsize`).
* `readyToSend` — per-sender flag: the previous round's sends have completed
  (`AtomicBool`, initially true).

The tokio clients/servers, notifications and the set-once callbacks carry no
data relevant to the claims and are not part of the state. -/
structure ExchangeState (T : Type) where
  npeers : Nat
  mailboxes : Nat → Option T
  receiverCounters : Nat → Nat
  readyToSend : Nat → Bool

/-- `Exchange::mailbox_index` (exchange2.rs:293-297). -/
def mailboxIndex {T : Type} (e : ExchangeState T) (sender receiver : Nat) : Nat :=
  sender * e.npeers + receiver

/-- `Exchange::mailbox` — the option cell of a sender/receiver pair. -/
def mailbox {T : Type} (e : ExchangeState T) (sender receiver : Nat) : Option T :=
  e.mailboxes (mailboxIndex e sender receiver)

/-- `Exchange::new` (exchange2.rs:219-269): every mailbox empty, every
receiver counter 0, every `ready_to_send` flag true. -/
def exchangeNew (T : Type) (npeers : Nat) : ExchangeState T :=
  { npeers := npeers
    mailboxes := fun _ => none
    receiverCounters := fun _ => 0
    readyToSend := fun _ => true }

/-- `Exchange::ready_to_send` (exchange2.rs:309-312). -/
def readyToSendFlag {T : Type} (e : ExchangeState T) (sender : Nat) : Bool :=
  e.readyToSend sender

/-- `Exchange::ready_to_receive` (exchange2.rs:367-370): the receiver's
counter has reached `npeers`. -/
def readyToReceive {T : Type} (e : ExchangeState T) (receiver : Nat) : Bool :=
  e.receiverCounters receiver == e.npeers

/-- The synchronous prefix of `Exchange::try_send_all` (exchange2.rs:327-361):
fail if the readiness gate `ready_to_send(sender)` is down, otherwise clear
the flag and hand the `npeers` values to a spawned delivery task.  The
asynchronous deliveries themselves run concurrently and are outside this
sequential model. -/
def trySendAll {T : Type} (e : ExchangeState T) (sender : Nat) : Bool × ExchangeState T :=
  if ¬ readyToSendFlag e sender then (false, e)
  else
    (true, { e with readyToSend := fun i => if i = sender then false else e.readyToSend i })

/-- The receive loop of `Exchange::try_receive_all` (exchange2.rs:387-397)
over a list of sender indices: take the value out of `mailbox[s][receiver]`
(`none` models the `unwrap` panic on an empty mailbox), pass it to the
callback (the returned list collects the callback's arguments in order),
decrement `receiver_counter[receiver]`, and notify the sender's slot. -/
def receiveLoop {T : Type} (e : ExchangeState T) (receiver : Nat) :
    List Nat → Option (List T × ExchangeState T)
  | [] => some ([], e)
  | s :: rest =>
    match e.mailboxes (s * e.npeers + receiver) with
    | none => none
    | some v =>
      let e' : ExchangeState T :=
        { e with
          mailboxes := fun i => if i = s * e.npeers + receiver then none else e.mailboxes i
          receiverCounters := fun j =>
            if j = receiver then e.receiverCounters receiver - 1 else e.receiverCounters j }
      match receiveLoop e' receiver rest with
      | some (vals, e'') => some (v :: vals, e'')
      | none => none

/-- `Exchange::try_receive_all` (exchange2.rs:379-399): return false if the
receiver's counter differs from `npeers`; otherwise drain the receiver's
mailboxes in sender-index order 0, 1, ..., npeers-1.  The middle component
collects the values passed to the callback; `none` models an `unwrap` panic. -/
def tryReceiveAll {T : Type} (e : ExchangeState T) (receiver : Nat) :
    Option (Bool × List T × ExchangeState T) :=
  if ¬ readyToReceive e receiver then some (false, [], e)
  else
    match receiveLoop e receiver (List.range e.npeers) with
    | some (vals, e') => some (true, vals, e')
    | none => none

theorem receiveLoop_cons {T : Type} (e : ExchangeState T) (receiver s : Nat)
    (rest : List Nat) (v : T) (hv : e.mailboxes (s * e.npeers + receiver) = some v)
    {e2 : ExchangeState T}
    (he2 : e2 =
      { e with
        mailboxes := fun i => if i = s * e.npeers + receiver then none else e.mailboxes i
        receiverCounters := fun j =>
          if j = receiver then e.receiverCounters receiver - 1 else e.receiverCounters j }) :
    receiveLoop e receiver (s :: rest) =
      (receiveLoop e2 receiver rest).map (fun p => (v :: p.1, p.2)) := by
  subst he2
  simp only [receiveLoop, hv]
  cases hres : receiveLoop _ receiver rest with
  | none => simp [hres]
  | some p =>
    cases p
    simp [hres]

theorem receiveLoop_spec {T : Type} (receiver : Nat) :
    ∀ (ss : List Nat) (e : ExchangeState T),
      ss.Nodup → (∀ s ∈ ss, s < e.npeers) →
      (∀ s ∈ ss, (e.mailboxes (s * e.npeers + receiver)).isSome) →
      ∃ vals e'',
        receiveLoop e receiver ss = some (vals, e'') ∧
        vals = ss.filterMap (fun s => e.mailboxes (s * e.npeers + receiver)) ∧
        e''.npeers = e.npeers ∧
        e''.readyToSend = e.readyToSend ∧
        (∀ j, j ≠ receiver → e''.receiverCounters j = e.receiverCounters j) ∧
        e''.receiverCounters receiver = e.receiverCounters receiver - ss.length ∧
        (∀ s ∈ ss, e''.mailboxes (s * e.npeers + receiver) = none) ∧
        (∀ i, (∀ s ∈ ss, i ≠ s * e.npeers + receiver) → e''.mailboxes i = e.mailboxes i) := by
  intro ss
  induction ss with
  | nil =>
    intro e _ _ _
    exact ⟨[], e, rfl, rfl, rfl, rfl, fun _ _ => rfl, rfl, by simp, fun _ _ => rfl⟩
  | cons s rest ih =>
    intro e hnd hlt hsome
    have hN : 0 < e.npeers := Nat.lt_of_le_of_lt (Nat.zero_le s) (hlt s (List.mem_cons_self _ _))
    obtain ⟨v, hv⟩ := Option.isSome_iff_exists.mp (hsome s (List.mem_cons_self _ _))
    have hsnot : s ∉ rest := (List.nodup_cons.mp hnd).1
    set e' : ExchangeState T :=
      { e with
        mailboxes := fun i => if i = s * e.npeers + receiver then none else e.mailboxes i
        receiverCounters := fun j =>
          if j = receiver then e.receiverCounters receiver - 1 else e.receiverCounters j }
      with he'
    have hm' : ∀ i, e'.mailboxes i =
        if i = s * e.npeers + receiver then none else e.mailboxes i := fun _ => rfl
    have hc' : ∀ j, e'.receiverCounters j =
        if j = receiver then e.receiverCounters receiver - 1 else e.receiverCounters j :=
      fun _ => rfl
    have hn' : e'.npeers = e.npeers := rfl
    have hinj : ∀ s', s' < e.npeers → s' ≠ s →
        s' * e.npeers + receiver ≠ s * e.npeers + receiver := by
      intro s' _ hne heq
      exact hne (Nat.eq_of_mul_eq_mul_right hN (by omega))
    have hrest : ∀ s' ∈ rest, e'.mailboxes (s' * e'.npeers + receiver) =
        e.mailboxes (s' * e.npeers + receiver) := by
      intro s' hs'
      rw [hn', hm', if_neg (hinj s' (hlt s' (List.mem_cons_of_mem _ hs'))
        (fun hss => hsnot (hss ▸ hs')))]
    obtain ⟨vals, e'', hrun, hvals, hpeers, hready, hcnt, hcntr, hclear, hkeep⟩ :=
      ih e' (List.nodup_cons.mp hnd).2
        (fun s' hs' => hn' ▸ hlt s' (List.mem_cons_of_mem _ hs'))
        (fun s' hs' => by rw [hrest s' hs']; exact hsome s' (List.mem_cons_of_mem _ hs'))
    have hpeers' : e''.npeers = e.npeers := hpeers.trans hn'
    refine ⟨v :: vals, e'', ?_, ?_, hpeers', hready, ?_, ?_, ?_, ?_⟩
    · rw [receiveLoop_cons e receiver s rest v hv he', hrun]
      rfl
    · simp only [List.filterMap_cons, hv, hvals]
      congr 1
      exact List.filterMap_congr (fun s' hs' => hrest s' hs')
    · intro j hj
      rw [hcnt j hj, hc', if_neg hj]
    · rw [hcntr, hc', if_pos rfl, List.length_cons]
      omega
    · intro s' hs'
      rcases List.mem_cons.mp hs' with rfl | hs'
      · have hside : ∀ q ∈ rest, s' * e.npeers + receiver ≠ q * e'.npeers + receiver := by
          intro q hq
          rw [hn']
          exact (hinj q (hlt q (List.mem_cons_of_mem _ hq))
            (fun hqs => hsnot (hqs ▸ hq))).symm
        rw [hkeep _ hside, hm', if_pos rfl]
      · have := hclear s' hs'
        rwa [hn'] at this
    · intro i hi
      have hside : ∀ q ∈ rest, i ≠ q * e'.npeers + receiver := by
        intro q hq
        rw [hn']
        exact hi q (List.mem_cons_of_mem _ hq)
      rw [hkeep i hside, hm', if_neg (hi s (List.mem_cons_self _ _))]

/-- C3: behavior of `try_receive_all(receiver, cb)` for an exchange with `N`
peers, absent concurrent senders.  If `receiver_counter[receiver] ≠ N` it
returns false, invokes the callback zero times and leaves every mailbox,
every counter and every flag unchanged.  If `receiver_counter[receiver] = N`
(all of the receiver's mailboxes being full, as the counter promises), it
returns true, passes to the callback exactly the `N` values taken from
`mailbox[s][receiver]` in sender-index order `s = 0, 1, ..., N-1`, leaves all
of the receiver's mailboxes empty, leaves `receiver_counter[receiver] = 0`,
and touches no other mailbox, counter or flag. -/
theorem try_receive_all_spec {T : Type} (e : ExchangeState T) (receiver : Nat) :
    (e.receiverCounters receiver ≠ e.npeers →
      tryReceiveAll e receiver = some (false, [], e)) ∧
    (e.receiverCounters receiver = e.npeers →
      (∀ s < e.npeers, (mailbox e s receiver).isSome) →
      ∃ e'',
        tryReceiveAll e receiver =
          some (true, (List.range e.npeers).filterMap
            (fun s => e.mailboxes (s * e.npeers + receiver)), e'') ∧
        (∀ s < e.npeers, mailbox e'' s receiver = none) ∧
        e''.receiverCounters receiver = 0 ∧
        e''.npeers = e.npeers ∧
        e''.readyToSend = e.readyToSend ∧
        (∀ j, j ≠ receiver → e''.receiverCounters j = e.receiverCounters j) ∧
        (∀ i, (∀ s < e.npeers, i ≠ s * e.npeers + receiver) →
          e''.mailboxes i = e.mailboxes i)) := by
  constructor
  · intro hc
    have : ¬ readyToReceive e receiver := by
      simp [readyToReceive, hc]
    simp [tryReceiveAll, this]
  · intro hc hfull
    have hready : readyToReceive e receiver := by
      simp [readyToReceive, hc]
    obtain ⟨vals, e'', hrun, hvals, hpeers, hready', hcnt, hcntr, hclear, hkeep⟩ :=
      receiveLoop_spec receiver (List.range e.npeers) e (List.nodup_range _)
        (fun s hs => List.mem_range.mp hs)
        (fun s hs => hfull s (List.mem_range.mp hs))
    refine ⟨e'', ?_, ?_, ?_, hpeers, hready', hcnt, ?_⟩
    · simp [tryReceiveAll, hready, hrun, hvals]
    · intro s hs
      have := hclear s (List.mem_range.mpr hs)
      simpa [mailbox, mailboxIndex, hpeers] using this
    · rw [hcntr, hc]
      simp
    · intro i hi
      exact hkeep i (fun s hs => hi s (List.mem_range.mp hs))

/-- Witness for C3 with `N = 2`, `receiver = 0`, all mailboxes holding value
7 and the receiver's counter at 2: `try_receive_all` succeeds with values
`[7, 7]`; and on a counter of 1 it fails and changes nothing. -/
theorem try_receive_all_spec_witness :
    (∃ e'', tryReceiveAll
        ({ npeers := 2, mailboxes := fun _ => some 7,
           receiverCounters := fun _ => 2, readyToSend := fun _ => true } : ExchangeState Nat) 0 =
        some (true, [7, 7], e'') ∧ e''.receiverCounters 0 = 0) ∧
      tryReceiveAll
        ({ npeers := 2, mailboxes := fun _ => some 7,
           receiverCounters := fun _ => 1, readyToSend := fun _ => true } : ExchangeState Nat) 0 =
        some (false, [],
          { npeers := 2, mailboxes := fun _ => some 7,
            receiverCounters := fun _ => 1, readyToSend := fun _ => true }) := by
  constructor
  · obtain ⟨e'', hrun, _, hcnt, _⟩ :=
      (try_receive_all_spec
        ({ npeers := 2, mailboxes := fun _ => some 7,
           receiverCounters := fun _ => 2, readyToSend := fun _ => true } : ExchangeState Nat)
        0).2 rfl (fun s _ => rfl)
    exact ⟨e'', by simpa [List.range_succ] using hrun, hcnt⟩
  · exact (try_receive_all_spec _ 0).1 (by decide)

/-- C10: a freshly constructed exchange with `N ≥ 1` peers has
`ready_to_send(s) = true` for every sender, `receiver_counter[r] = 0` (hence
`ready_to_receive(r) = false`) for every receiver, and every mailbox empty;
consequently, before any deliveries, `try_send_all` passes its readiness gate
for every sender while `try_receive_all` returns false and changes nothing. -/
theorem exchange_new_initial_state (T : Type) (npeers : Nat) (hN : 1 ≤ npeers) :
    (∀ s, readyToSendFlag (exchangeNew T npeers) s = true) ∧
    (∀ r, (exchangeNew T npeers).receiverCounters r = 0) ∧
    (∀ r, readyToReceive (exchangeNew T npeers) r = false) ∧
    (∀ s r, mailbox (exchangeNew T npeers) s r = none) ∧
    (∀ s, (trySendAll (exchangeNew T npeers) s).1 = true) ∧
    (∀ r, tryReceiveAll (exchangeNew T npeers) r =
      some (false, [], exchangeNew T npeers)) := by
  refine ⟨fun s => rfl, fun r => rfl, ?_, fun s r => rfl, ?_, ?_⟩
  · intro r
    simp only [readyToReceive, exchangeNew, beq_eq_false_iff_ne, ne_eq]
    omega
  · intro s
    simp [trySendAll, readyToSendFlag, exchangeNew]
  · intro r
    have : ¬ readyToReceive (exchangeNew T npeers) r := by
      simp only [readyToReceive, exchangeNew, beq_iff_eq]
      omega
    simp [tryReceiveAll, this]

/-- Witness for C10 at `N = 2` (`T = Nat`), receiver and sender 0. -/
theorem exchange_new_initial_state_witness :
    readyToSendFlag (exchangeNew Nat 2) 0 = true ∧
      readyToReceive (exchangeNew Nat 2) 0 = false ∧
      (trySendAll (exchangeNew Nat 2) 0).1 = true ∧
      tryReceiveAll (exchangeNew Nat 2) 0 = some (false, [], exchangeNew Nat 2) := by
  obtain ⟨h1, _, h3, _, h5, h6⟩ := exchange_new_initial_state Nat 2 (by omega)
  exact ⟨h1 0, h3 0, h5 0, h6 0⟩

end Exchange

namespace Splitter

/-- `StreamingSplitter` (file.rs:53-59): a growable byte buffer holding one
contiguous piece of the input stream.  `start` is the absolute stream offset
of buffer byte 0; `fragStart..fragEnd` is the fragment of buffered,
not-yet-emitted bytes; `fed` is one past the last byte already offered to the
splitter oracle.  Bytes are embedded as `Nat`; the format-specific `Splitter`
oracle is a parameter of the operations that consult it. -/
structure StreamingSplitter where
  buffer : List Nat
  start : Nat
  fragStart : Nat
  fragEnd : Nat
  fed : Nat

/-- Rust slice `buffer[a..b]`. -/
def slice (l : List Nat) (a b : Nat) : List Nat := (l.take b).drop a

/-- `StreamingSplitter::new` (file.rs:62-72): a zeroed buffer of
`buffer_size` bytes (8192 when the configured size is 0), all markers 0. -/
def new (bufferSize : Nat) : StreamingSplitter :=
  { buffer := List.replicate (if bufferSize = 0 then 8192 else bufferSize) 0
    start := 0
    fragStart := 0
    fragEnd := 0
    fed := 0 }

/-- `StreamingSplitter::next` (file.rs:73-89): offer the oracle the bytes
`buffer[fed..fragment.end]`; on `some n` emit `buffer[fragment.start..fed+n]`
and advance both `fed` and `fragment.start` to `fed + n`; on `none` set
`fed = fragment.end` and emit nothing. -/
def next (oracle : List Nat → Option Nat) (st : StreamingSplitter) :
    Option (List Nat) × StreamingSplitter :=
  match oracle (slice st.buffer st.fed st.fragEnd) with
  | some n =>
    (some (slice st.buffer st.fragStart (st.fed + n)),
      { st with fed := st.fed + n, fragStart := st.fed + n })
  | none => (none, { st with fed := st.fragEnd })

/-- `StreamingSplitter::position` (file.rs:90-92). -/
def position (st : StreamingSplitter) : Nat := st.start + st.fragStart

/-- `StreamingSplitter::final_chunk` (file.rs:93-101): if the fragment is
nonempty (`Range::is_empty` is `start >= end`), emit it once and empty it by
pulling `fragment.end` back to `fragment.start`; `fed` is left unchanged. -/
def finalChunk (st : StreamingSplitter) : Option (List Nat) × StreamingSplitter :=
  if st.fragStart < st.fragEnd then
    (some (slice st.buffer st.fragStart st.fragEnd), { st with fragEnd := st.fragStart })
  else (none, st)

/-- `StreamingSplitter::spare_capacity_mut` (file.rs:102-111): compact by
copying the fragment to offset 0 (`Vec::copy_within`), add the shift to
`start`, subtract it from `fed`, reset the fragment to `0..fragment.len()`,
and if the fragment still fills the whole buffer, grow it with
`resize(capacity * 2, 0)` — modelled with capacity equal to the length, i.e.
appending `len` zero bytes.  The writable tail is `buffer[fragment.len()..]`. -/
def spareCapacityMut (st : StreamingSplitter) : StreamingSplitter :=
  let fragLen := st.fragEnd - st.fragStart
  let buf := slice st.buffer st.fragStart st.fragEnd ++ st.buffer.drop fragLen
  let st1 : StreamingSplitter :=
    { buffer := buf
      start := st.start + st.fragStart
      fragStart := 0
      fragEnd := fragLen
      fed := st.fed - st.fragStart }
  if fragLen = st1.buffer.length then
    { st1 with buffer := st1.buffer ++ List.replicate st1.buffer.length 0 }
  else st1

/-- `StreamingSplitter::added_data` (file.rs:112-114). -/
def addedData (st : StreamingSplitter) (n : Nat) : StreamingSplitter :=
  { st with fragEnd := st.fragEnd + n }

/-- `StreamingSplitter::read` (file.rs:115-126): make spare room, read at
most `maxRead` bytes from the source into it, and account for them with
`added_data`.  The byte source is a list plus a cursor position; a read
returns `min (min spare maxRead) remaining` bytes.  Returns the new splitter
state, the count read, and the new source position. -/
def read (st : StreamingSplitter) (file : List Nat) (pos : Nat) (maxRead : Nat) :
    StreamingSplitter × Nat × Nat :=
  let st1 := spareCapacityMut st
  let space := min (st1.buffer.length - st1.fragEnd) maxRead
  let n := min space (file.length - pos)
  let buf := st1.buffer.take st1.fragEnd ++ (file.drop pos).take n
      ++ st1.buffer.drop (st1.fragEnd + n)
  (addedData { st1 with buffer := buf } n, n, pos + n)

/-- `StreamingSplitter::seek` (file.rs:127-132): keep the allocation, set
`start = offset`, reset the fragment and `fed`, clear the oracle (the oracle
is stateless here, so clearing has no embedded effect). -/
def seek (st : StreamingSplitter) (offset : Nat) : StreamingSplitter :=
  { st with start := offset, fragStart := 0, fragEnd := 0, fed := 0 }

/-- The splitter buffer invariant (spec §3):
`fragment.start ≤ fed ≤ fragment.end ≤ buffer.len()`. -/
def wf (st : StreamingSplitter) : Prop :=
  st.fragStart ≤ st.fed ∧ st.fed ≤ st.fragEnd ∧ st.fragEnd ≤ st.buffer.length

theorem slice_length (l : List Nat) (a b : Nat) (hb : b ≤ l.length) :
    (slice l a b).length = b - a := by
  simp [slice]
  omega

theorem slice_append_slice (l : List Nat) (a b c : Nat) (hab : a ≤ b) (hbc : b ≤ c) :
    slice l a c = slice l a b ++ slice l b c := by
  simp only [slice, List.drop_take]
  rw [show c - a = (b - a) + (c - b) by omega, List.take_add, List.drop_drop,
    show a + (b - a) = b by omega]

theorem slice_take (l : List Nat) (b c n : Nat) (h : n ≤ c - b) :
    (slice l b c).take n = slice l b (b + n) := by
  simp only [slice, List.drop_take, List.take_take]
  rw [show n ⊓ (c - b) = n by omega, show b + n - b = n by omega]


/-- C4: `next()` consults the oracle on exactly `buffer[fed..fragment.end]`.
When the oracle answers `some n` (with `n` within the offered slice, its
contract), the call emits the record `buffer[fragment.start..fed+n]` — the
bytes offered earlier plus the first `n` bytes of this offer — and advances
both `fed` and `fragment.start` by `n`, moving the cursor position forward by
the record length.  When it answers `none`, the call sets
`fed = fragment.end`, emits nothing, and moves the cursor nowhere. -/
theorem next_spec (oracle : List Nat → Option Nat) (st : StreamingSplitter) (hwf : wf st) :
    (∀ n, oracle (slice st.buffer st.fed st.fragEnd) = some n → n ≤ st.fragEnd - st.fed →
      next oracle st =
        (some (slice st.buffer st.fragStart (st.fed + n)),
          { st with fed := st.fed + n, fragStart := st.fed + n }) ∧
      slice st.buffer st.fragStart (st.fed + n) =
        slice st.buffer st.fragStart st.fed ++ (slice st.buffer st.fed st.fragEnd).take n ∧
      position (next oracle st).2 =
        position st + (slice st.buffer st.fragStart (st.fed + n)).length) ∧
    (oracle (slice st.buffer st.fed st.fragEnd) = none →
      next oracle st = (none, { st with fed := st.fragEnd }) ∧
      position (next oracle st).2 = position st) := by
  obtain ⟨h1, h2, h3⟩ := hwf
  constructor
  · intro n hn hle
    refine ⟨by simp [next, hn], ?_, ?_⟩
    · rw [slice_take st.buffer st.fed st.fragEnd n hle,
        slice_append_slice st.buffer st.fragStart st.fed (st.fed + n) h1 (by omega)]
    · simp only [next, hn, position]
      rw [slice_length st.buffer st.fragStart (st.fed + n) (by omega)]
      omega
  · intro hn
    exact ⟨by simp [next, hn], by simp [next, hn, position]⟩

/-- Witness for C4: a four-byte buffer `[10, 11, 12, 13]`, fully buffered and
none of it yet offered, with an oracle that finds a record boundary two bytes
in: `next` emits `[10, 11]` and advances `fed` and `fragment.start` to 2; the
same oracle on an empty offer makes `next` return `none`. -/
theorem next_spec_witness :
    next (fun l => if 2 ≤ l.length then some 2 else none)
        ⟨[10, 11, 12, 13], 0, 0, 4, 0⟩ =
      (some [10, 11], ⟨[10, 11, 12, 13], 0, 2, 4, 2⟩) ∧
    next (fun l => if 2 ≤ l.length then some 2 else none)
        ⟨[10, 11, 12, 13], 0, 4, 4, 4⟩ =
      (none, ⟨[10, 11, 12, 13], 0, 4, 4, 4⟩) := by
  constructor
  · have h := ((next_spec (fun l => if 2 ≤ l.length then some 2 else none)
      ⟨[10, 11, 12, 13], 0, 0, 4, 0⟩ (by refine ⟨?_, ?_, ?_⟩ <;> simp)).1 2 rfl (by decide)).1
    simpa [slice] using h
  · have h := ((next_spec (fun l => if 2 ≤ l.length then some 2 else none)
      ⟨[10, 11, 12, 13], 0, 4, 4, 4⟩ (by refine ⟨?_, ?_, ?_⟩ <;> simp)).2 rfl).1
    simpa using h

/-- C5 counterexample: `final_chunk` does not preserve the splitter
invariant.  On the reachable state with `buffer = [0, 0]`,
`fragment = 0..2`, `fed = 2` (exactly the state after `next` returned `none`
on a fully fed fragment), `final_chunk` pulls `fragment.end` back to 0 while
leaving `fed = 2`, violating `fed ≤ fragment.end`. -/
theorem final_chunk_invariant_cex :
    wf ⟨[0, 0], 0, 0, 2, 2⟩ ∧ ¬ wf (finalChunk ⟨[0, 0], 0, 0, 2, 2⟩).2 := by
  constructor
  · exact ⟨by decide, by decide, by decide⟩
  · intro h
    obtain ⟨-, h2, -⟩ := h
    simp [finalChunk] at h2

theorem scm_fragStart (st : StreamingSplitter) : (spareCapacityMut st).fragStart = 0 := by
  simp only [spareCapacityMut]
  split <;> rfl

theorem scm_fed (st : StreamingSplitter) :
    (spareCapacityMut st).fed = st.fed - st.fragStart := by
  simp only [spareCapacityMut]
  split <;> rfl

theorem scm_fragEnd (st : StreamingSplitter) :
    (spareCapacityMut st).fragEnd = st.fragEnd - st.fragStart := by
  simp only [spareCapacityMut]
  split <;> rfl

theorem scm_start (st : StreamingSplitter) :
    (spareCapacityMut st).start = st.start + st.fragStart := by
  simp only [spareCapacityMut]
  split <;> rfl

theorem scm_buffer_length (st : StreamingSplitter) (h3 : st.fragEnd ≤ st.buffer.length) :
    st.fragEnd - st.fragStart ≤ (spareCapacityMut st).buffer.length ∧
      st.buffer.length ≤ (spareCapacityMut st).buffer.length := by
  have hlen : (slice st.buffer st.fragStart st.fragEnd ++
      st.buffer.drop (st.fragEnd - st.fragStart)).length = st.buffer.length := by
    rw [List.length_append, slice_length st.buffer st.fragStart st.fragEnd h3,
      List.length_drop]
    omega
  simp only [spareCapacityMut]
  split
  · simp only [List.length_append, List.length_replicate, hlen]
    omega
  · simp only [hlen]
    omega

/-- C5 as amended: `next` (under the oracle contract `n ≤` offered length),
`spare_capacity_mut`, `added_data` (under `n ≤` spare capacity), `read` and
`seek` preserve the invariant
`fragment.start ≤ fed ≤ fragment.end ≤ buffer.len()`, and each keeps
`start + fragment.start` equal to the cursor's stream position (compaction
and reads leave it unchanged, `seek(offset)` makes it `offset`).
`final_chunk` preserves `fragment.start ≤ fragment.end ≤ buffer.len()` and
the position, but leaves `fed` unchanged while emptying the fragment, so it
preserves `fed ≤ fragment.end` only when `fed = fragment.start`. -/
theorem splitter_ops_preserve_invariant (st : StreamingSplitter) (hwf : wf st) :
    (∀ oracle n, oracle (slice st.buffer st.fed st.fragEnd) = some n →
      n ≤ st.fragEnd - st.fed → wf (next oracle st).2) ∧
    (∀ oracle, oracle (slice st.buffer st.fed st.fragEnd) = none →
      wf (next oracle st).2) ∧
    (wf (spareCapacityMut st) ∧ position (spareCapacityMut st) = position st) ∧
    (∀ n, st.fragEnd + n ≤ st.buffer.length →
      wf (addedData st n) ∧ position (addedData st n) = position st) ∧
    (∀ file pos maxRead, wf (read st file pos maxRead).1 ∧
      position (read st file pos maxRead).1 = position st) ∧
    (∀ offset, wf (seek st offset) ∧ position (seek st offset) = offset) ∧
    ((finalChunk st).2.fragStart ≤ (finalChunk st).2.fragEnd ∧
      (finalChunk st).2.fragEnd ≤ (finalChunk st).2.buffer.length ∧
      position (finalChunk st).2 = position st ∧
      (st.fed ≤ st.fragStart → wf (finalChunk st).2)) := by
  obtain ⟨h1, h2, h3⟩ := hwf
  have hbuf := scm_buffer_length st h3
  have hwfscm : wf (spareCapacityMut st) := by
    refine ⟨?_, ?_, ?_⟩ <;>
      simp only [scm_fragStart, scm_fed, scm_fragEnd] <;> omega
  have hposscm : position (spareCapacityMut st) = position st := by
    simp only [position, scm_start, scm_fragStart]
    omega
  refine ⟨?_, ?_, ⟨hwfscm, hposscm⟩, ?_, ?_, ?_, ?_⟩
  · intro oracle n hn hle
    simp only [next, hn, wf]
    exact ⟨le_refl _, by omega, h3⟩
  · intro oracle hn
    simp only [next, hn, wf]
    exact ⟨by omega, le_refl _, h3⟩
  · intro n hn
    refine ⟨⟨?_, ?_, ?_⟩, ?_⟩ <;> simp only [addedData, wf, position] <;> omega
  · intro file pos maxRead
    obtain ⟨g1, g2, g3⟩ := hwfscm
    constructor
    · simp only [read, addedData, wf]
      simp only [List.length_append, List.length_take, List.length_drop]
      refine ⟨?_, ?_, ?_⟩ <;>
        simp only [scm_fragStart, scm_fed, scm_fragEnd] at g1 g2 g3 ⊢ <;> omega
    · simp only [read, addedData, position, scm_start, scm_fragStart]
      omega
  · intro offset
    refine ⟨⟨?_, ?_, ?_⟩, ?_⟩ <;> simp [seek, wf, position]
  · simp only [finalChunk]
    split
    · refine ⟨?_, ?_, ?_, fun hf => ⟨?_, ?_, ?_⟩⟩ <;> simp only [wf, position] <;> omega
    · exact ⟨h1.trans h2, h3, rfl, fun hf => ⟨h1, h2, h3⟩⟩

/-- Witness for C5 (amended) on the state `buffer = [10, 11, 12, 13]`,
`fragment = 1..3`, `fed = 2`, `start = 5`: compaction keeps the invariant
and the position, `seek` re-establishes it, and `final_chunk` from a state
with `fed = fragment.start` keeps it. -/
theorem splitter_ops_preserve_invariant_witness :
    wf (spareCapacityMut ⟨[10, 11, 12, 13], 5, 1, 3, 2⟩) ∧
      position (spareCapacityMut ⟨[10, 11, 12, 13], 5, 1, 3, 2⟩) =
        position ⟨[10, 11, 12, 13], 5, 1, 3, 2⟩ ∧
      wf (seek ⟨[10, 11, 12, 13], 5, 1, 3, 2⟩ 9) ∧
      wf (finalChunk ⟨[10, 11, 12, 13], 5, 1, 3, 1⟩).2 := by
  have h := splitter_ops_preserve_invariant ⟨[10, 11, 12, 13], 5, 1, 3, 2⟩
    ⟨by decide, by decide, by decide⟩
  have h2 := splitter_ops_preserve_invariant ⟨[10, 11, 12, 13], 5, 1, 3, 1⟩
    ⟨by decide, by decide, by decide⟩
  exact ⟨(h.2.2.1).1, (h.2.2.1).2, (h.2.2.2.2.2.1 9).1,
    (h2.2.2.2.2.2.2).2.2.2 (by decide)⟩


inductive ReplayAbort where
  | todoUnimplemented : ReplayAbort
  | outOfFuel : ReplayAbort

/-- The record-drain loop `while let Some(chunk) = splitter.next()`
(file.rs:227-231): collect the chunks handed to the parser.  The loop is
fuel-bounded because a degenerate oracle answering `some 0` forever would
spin; the runs below use ample fuel. -/
def drainLoop (oracle : List Nat → Option Nat) :
    StreamingSplitter → Nat → List (List Nat) × StreamingSplitter
  | st, 0 => ([], st)
  | st, fuel + 1 =>
    match next oracle st with
    | (some chunk, st') =>
      let (rest, st'') := drainLoop oracle st' fuel
      (chunk :: rest, st'')
    | (none, st') => ([], st')

/-- The byte-consuming loop of the `Replay` arm (file.rs:226-240): drain
ready records, stop when the requested range is consumed, otherwise read at
most `remainder` more bytes; a read of 0 bytes with part of the range still
missing is the `todo!()` at file.rs:237, modelled as
`ReplayAbort.todoUnimplemented`. -/
def replayLoop (oracle : List Nat → Option Nat) (file : List Nat) :
    Nat → StreamingSplitter → Nat → Nat →
      Except ReplayAbort (List (List Nat) × StreamingSplitter)
  | _, _, _, 0 => .error .outOfFuel
  | pos, st, remainder, fuel + 1 =>
    let (chunks, st1) := drainLoop oracle st (fuel + 1)
    if remainder = 0 then .ok (chunks, st1)
    else
      match read st1 file pos remainder with
      | (st2, n, posNew) =>
        if n = 0 then .error .todoUnimplemented
        else
          match replayLoop oracle file posNew st2 (remainder - n) fuel with
          | .ok (more, st3) => .ok (chunks ++ more, st3)
          | .error e => .error e

/-- The `Replay` command arm (file.rs:221-249) on a fresh reader: seek the
file and the splitter to `offsets.start`, consume the range
`offsets.start .. offsets.end`, then emit the final chunk.  Returns the
replayed record chunks, or the abort the loop hit. -/
def replayCommand (oracle : List Nat → Option Nat) (file : List Nat)
    (bufferSize : Nat) (offsets : Nat × Nat) (fuel : Nat) :
    Except ReplayAbort (List (List Nat)) :=
  match replayLoop oracle file offsets.1 (seek (new bufferSize) offsets.1)
      (offsets.2 - offsets.1) fuel with
  | .ok (chunks, st) =>
    match finalChunk st with
    | (some chunk, _) => .ok (chunks ++ [chunk])
    | (none, _) => .ok chunks
  | .error e => .error e

/-- C6: the replay loop retries short reads, but when the source ends inside
the requested offset range it hits the literal `todo!()` at file.rs:237
instead of raising a fatal error as the claim (and the spec design note)
requires.  Concretely, replaying offsets `[0, 4)` against an empty byte
source aborts at the unimplemented branch. -/
theorem replay_short_source_hits_todo :
    replayCommand (fun _ => none) [] 4 (0, 4) 5 =
      Except.error ReplayAbort.todoUnimplemented := rfl

/-- One queued parsed batch of the reader worker (file.rs:184): the byte
offset range it was parsed from and the number of records its input buffer
holds (`buffer.len()`); `flush_all` flushes exactly those records. -/
abbrev QueueEntry := (Nat × Nat) × Nat

/-- The `Queue` command loop of `FileInputReader::worker_thread`
(file.rs:194-208): pop queued buffers front to back; for each, extend the
reported offset range (keeping the first start, taking the new end), add its
record count to the running total, flush it, and stop once the total has
reached `limit` (`consumer.max_batch_size()`).  Returns the flush total, the
accumulated range, and the remaining queue. -/
def queueLoop : List QueueEntry → Nat → Option (Nat × Nat) → Nat →
    Nat × Option (Nat × Nat) × List QueueEntry
  | [], total, range, _ => (total, range, [])
  | (offsets, len) :: rest, total, range, limit =>
    let rangeNew := match range with
      | some r => some (r.1, offsets.2)
      | none => some offsets
    let totalNew := total + len
    if limit ≤ totalNew then (totalNew, rangeNew, rest)
    else queueLoop rest totalNew rangeNew limit

/-- The whole `Queue` arm (file.rs:194-216): run the loop with zero total
and no range, and report `extended(total, range)`, with `0..0` when nothing
was queued (`range.unwrap_or(0..0)`). -/
def queueCommand (queue : List QueueEntry) (limit : Nat) :
    (Nat × (Nat × Nat)) × List QueueEntry :=
  match queueLoop queue 0 none limit with
  | (total, range, rest) => ((total, range.getD (0, 0)), rest)

/-- Total record count of a list of queued batches. -/
def flushTotal (l : List QueueEntry) : Nat := (l.map (fun e => e.2)).sum

/-- The offset range reported for a flushed prefix: start of the first
flushed buffer's range to end of the last flushed buffer's range, `0..0`
when nothing was flushed. -/
def reportedRange : List QueueEntry → Nat × Nat
  | [] => (0, 0)
  | e :: rest => (e.1.1, ((((e :: rest).getLast?).map (fun x => x.1.2)).getD 0))

/-- C7 counterexample: the `Queue` arm can flush more than
`max_batch_size` records.  With two queued buffers of 2 records each and
`max_batch_size = 3`, it flushes 4 records, exceeding the limit. -/
theorem queue_flush_exceeds_limit_cex :
    (queueCommand [((0, 5), 2), ((5, 9), 2)] 3).1.1 = 4 ∧
      ¬ (queueCommand [((0, 5), 2), ((5, 9), 2)] 3).1.1 ≤ 3 := by
  constructor <;> decide

/-- The range accumulator of the `Queue` loop, folded over a list of popped
entries: keep the accumulated start (or adopt the first entry's start) and
always adopt the newest entry's end. -/
def extendAcc (range0 : Option (Nat × Nat)) : List QueueEntry → Option (Nat × Nat)
  | [] => range0
  | (offsets, _) :: rest =>
    extendAcc (match range0 with
      | some r => some (r.1, offsets.2)
      | none => some offsets) rest

theorem extendAcc_some (l : List QueueEntry) :
    ∀ r : Nat × Nat,
      extendAcc (some r) l = some (r.1, ((l.getLast?.map (fun x => x.1.2)).getD r.2)) := by
  induction l with
  | nil =>
    intro r
    simp [extendAcc]
  | cons e rest ih =>
    intro r
    obtain ⟨offsets, len⟩ := e
    simp only [extendAcc]
    rw [ih (r.1, offsets.2)]
    cases rest with
    | nil => simp
    | cons f fs =>
      obtain ⟨y, hy⟩ := Option.isSome_iff_exists.mp
        (List.getLast?_isSome.mpr (List.cons_ne_nil f fs))
      simp [List.getLast?_cons_cons, hy]

theorem extendAcc_none (l : List QueueEntry) :
    (extendAcc none l).getD (0, 0) = reportedRange l := by
  cases l with
  | nil => rfl
  | cons e rest =>
    obtain ⟨offsets, len⟩ := e
    simp only [extendAcc, extendAcc_some, reportedRange]
    cases rest with
    | nil => simp
    | cons f fs =>
      obtain ⟨y, hy⟩ := Option.isSome_iff_exists.mp
        (List.getLast?_isSome.mpr (List.cons_ne_nil f fs))
      simp [List.getLast?_cons_cons, hy]

theorem queueLoop_spec (limit : Nat) :
    ∀ (q : List QueueEntry) (total0 : Nat) (range0 : Option (Nat × Nat)),
      ∃ k, k ≤ q.length ∧
        queueLoop q total0 range0 limit =
          (total0 + flushTotal (q.take k), extendAcc range0 (q.take k), q.drop k) ∧
        (∀ j, 0 < j → j < k → total0 + flushTotal (q.take j) < limit) ∧
        (limit ≤ total0 + flushTotal (q.take k) ∨ k = q.length) ∧
        (q ≠ [] → 0 < k) := by
  intro q
  induction q with
  | nil =>
    intro total0 range0
    exact ⟨0, by simp, by simp [queueLoop, flushTotal, extendAcc], by omega,
      Or.inr rfl, by simp⟩
  | cons e rest ih =>
    intro total0 range0
    obtain ⟨offsets, len⟩ := e
    by_cases hbr : limit ≤ total0 + len
    · refine ⟨1, Nat.succ_le_succ (Nat.zero_le _), ?_, fun j hj1 hj2 => by omega, ?_,
        fun _ => by omega⟩
      · simp [queueLoop, hbr, flushTotal, extendAcc, List.take_succ_cons,
          List.drop_succ_cons]
      · left
        simpa [flushTotal] using hbr
    · obtain ⟨k, hk, hrun, hmin, hreach, hpos⟩ := ih (total0 + len)
        (match range0 with | some r => some (r.1, offsets.2) | none => some offsets)
      refine ⟨k + 1, by simpa using Nat.succ_le_succ hk, ?_, ?_, ?_, fun _ => by omega⟩
      · simp only [queueLoop, if_neg hbr]
        rw [hrun]
        simp only [List.take_succ_cons, List.drop_succ_cons, flushTotal, List.map_cons,
          List.sum_cons, extendAcc, Prod.mk.injEq]
        constructor
        · omega
        · trivial
      · intro j hj1 hj2
        cases j with
        | zero => omega
        | succ i =>
          simp only [List.take_succ_cons, flushTotal, List.map_cons, List.sum_cons]
          rcases Nat.eq_zero_or_pos i with rfl | hi
          · simp only [List.take_zero, List.map_nil, List.sum_nil]
            omega
          · have := hmin i hi (by omega)
            simp only [flushTotal] at this
            omega
      · rcases hreach with hle | hlen
        · left
          simp only [List.take_succ_cons, flushTotal, List.map_cons, List.sum_cons]
          simp only [flushTotal] at hle
          omega
        · right
          simp [hlen]

/-- C7 as amended: on the `Queue` command the reader flushes whole queued
buffers front to back, stopping after the first buffer that brings the
running total up to `max_batch_size` — so the flushed total can reach or
exceed `max_batch_size` (by up to one buffer), rather than being bounded by
it — and reports via `extended` the exact number of flushed records together
with the combined offset range, from the first flushed buffer's start to the
last flushed buffer's end (`0..0` when nothing was queued), leaving the
unflushed suffix queued. -/
theorem queue_flush_spec (queue : List QueueEntry) (limit : Nat) :
    ∃ k, k ≤ queue.length ∧
      queueCommand queue limit =
        ((flushTotal (queue.take k), reportedRange (queue.take k)), queue.drop k) ∧
      (∀ j, 0 < j → j < k → flushTotal (queue.take j) < limit) ∧
      (limit ≤ flushTotal (queue.take k) ∨ k = queue.length) := by
  obtain ⟨k, hk, hrun, hmin, hreach, hpos⟩ := queueLoop_spec limit queue 0 none
  refine ⟨k, hk, ?_, ?_, ?_⟩
  · simp only [queueCommand, hrun, extendAcc_none, Nat.zero_add]
  · intro j hj1 hj2
    have := hmin j hj1 hj2
    omega
  · rcases hreach with h | h
    · exact Or.inl (by omega)
    · exact Or.inr h

end Splitter

namespace LayerFile

/-- `InvalidBlockLocation` (feldera-storage file/mod.rs:256-260): the
offending offset and size, for error reporting. -/
structure InvalidBlockLocation where
  offset : Nat
  size : Nat
deriving DecidableEq

/-- The u64 modulus. -/
def u64Size : Nat := 2 ^ 64

/-- `usize::is_power_of_two` on a 64-bit machine: for a value below `2^64`,
exactly one bit is set iff the value is `2^e` for some `e < 64`. -/
def isPowerOfTwo (n : Nat) : Bool := decide (∃ e < 64, n = 2 ^ e)

/-- `u64::trailing_zeros` as the encoder uses it: the number of times 2
divides `n` (64, the bit width, for `n = 0`). -/
def trailingZeros : Nat → Nat
  | 0 => 64
  | n + 1 => if (n + 1) % 2 = 1 then 0 else trailingZeros ((n + 1) / 2) + 1
  termination_by n => n
  decreasing_by omega

/-- `BlockLocation::new` (file/mod.rs:274-281): valid iff the offset is 4
KiB-aligned (`offset & 0xfff == 0`, i.e. `offset % 4096 == 0`), the size lies
in `4096..=1 << 31`, and the size is a power of two. -/
def blockLocationNew (offset size : Nat) : Except InvalidBlockLocation (Nat × Nat) :=
  if offset % 4096 ≠ 0 ∨ ¬ (4096 ≤ size ∧ size ≤ 2 ^ 31) ∨ ¬ isPowerOfTwo size = true then
    Except.error ⟨offset, size⟩
  else Except.ok (offset, size)

/-- `TryFrom<u64> for BlockLocation` (file/mod.rs:284-290): decode the offset
as `(source & !0x1f) << 7` — clearing the low 5 bits is subtracting
`source % 32`, and the u64 shift discards bits beyond `2^64` — and the size
as `1 << (source & 0x1f)`, then validate with `new`. -/
def blockLocationTryFrom (source : Nat) : Except InvalidBlockLocation (Nat × Nat) :=
  blockLocationNew (((source - source % 32) * 128) % u64Size) (2 ^ (source % 32))

/-- `From<BlockLocation> for u64` (file/mod.rs:292-297): the low 5 bits hold
`size.trailing_zeros()` (the log2 of a power-of-two size) and the remaining
bits hold `offset >> 7`; for a valid location the two or-ed fields occupy
disjoint bits, so the bitwise or is addition. -/
def blockLocationToU64 (offset size : Nat) : Nat :=
  offset / 128 + trailingZeros size

theorem trailingZeros_even (m : Nat) (h0 : 0 < m) (he : m % 2 = 0) :
    trailingZeros m = trailingZeros (m / 2) + 1 := by
  cases m with
  | zero => omega
  | succ n =>
    rw [trailingZeros, if_neg (by omega)]

theorem trailingZeros_two_pow (e : Nat) : trailingZeros (2 ^ e) = e := by
  induction e with
  | zero => norm_num [trailingZeros]
  | succ i ih =>
    rw [trailingZeros_even (2 ^ (i + 1)) (Nat.pos_pow_of_pos _ (by omega))
      (by rw [pow_succ]; omega), pow_succ, Nat.mul_div_cancel _ (by omega), ih]

/-- C8: for every block location with a 4 KiB-aligned offset below `2^64` and
size `2^e` with `12 ≤ e ≤ 31`, decoding the encoded 64-bit locator returns
the original pair; and decoding any u64 whose implied offset is not 4
KiB-aligned or whose size exponent lies outside `[12, 31]` fails with an
invalid-location error carrying the implied pair. -/
theorem block_location_roundtrip :
    (∀ offset e, offset < 2 ^ 64 → offset % 4096 = 0 → 12 ≤ e → e ≤ 31 →
      blockLocationTryFrom (blockLocationToU64 offset (2 ^ e)) =
        Except.ok (offset, 2 ^ e)) ∧
    (∀ source,
      ((((source - source % 32) * 128) % u64Size) % 4096 ≠ 0 ∨
        source % 32 < 12 ∨ 31 < source % 32) →
      blockLocationTryFrom source =
        Except.error ⟨((source - source % 32) * 128) % u64Size, 2 ^ (source % 32)⟩) := by
  constructor
  · intro offset e hlt hal h12 h31
    have htz : trailingZeros (2 ^ e) = e := trailingZeros_two_pow e
    simp only [blockLocationToU64, htz, blockLocationTryFrom]
    have hs1 : (offset / 128 + e) % 32 = e := by omega
    rw [hs1]
    have hs2 : ((offset / 128 + e) - e) * 128 % u64Size = offset := by
      simp only [u64Size]
      omega
    rw [hs2]
    have hcond : ¬ (offset % 4096 ≠ 0 ∨ ¬ (4096 ≤ 2 ^ e ∧ 2 ^ e ≤ 2 ^ 31) ∨
        ¬ isPowerOfTwo (2 ^ e) = true) := by
      push_neg
      refine ⟨hal, ⟨?_, ?_⟩, ?_⟩
      · calc (4096 : Nat) = 2 ^ 12 := by norm_num
          _ ≤ 2 ^ e := Nat.pow_le_pow_right (by omega) h12
      · exact Nat.pow_le_pow_right (by omega) h31
      · simp only [isPowerOfTwo, decide_eq_true_eq]
        exact ⟨e, by omega, rfl⟩
    rw [blockLocationNew, if_neg hcond]
  · intro source h
    have hauto : (((source - source % 32) * 128) % u64Size) % 4096 = 0 := by
      simp only [u64Size]
      omega
    have h12 : source % 32 < 12 := by
      rcases h with h | h | h
      · exact absurd hauto h
      · exact h
      · omega
    have hsmall : (2 : Nat) ^ (source % 32) < 4096 := by
      calc (2 : Nat) ^ (source % 32) < 2 ^ 12 :=
            Nat.pow_lt_pow_right (by omega) h12
        _ = 4096 := by norm_num
    have hcond : ((((source - source % 32) * 128) % u64Size) % 4096 ≠ 0 ∨
        ¬ (4096 ≤ 2 ^ (source % 32) ∧ 2 ^ (source % 32) ≤ 2 ^ 31) ∨
        ¬ isPowerOfTwo (2 ^ (source % 32)) = true) := by
      right
      left
      intro hc
      omega
    simp only [blockLocationTryFrom]
    rw [blockLocationNew, if_pos hcond]

/-- Witness for C8 at offset 4096, size `2^12` (round trip succeeds) and at
the raw locator 5 (size exponent 5 < 12, decoding fails with the implied
pair `(0, 32)`). -/
theorem block_location_roundtrip_witness :
    blockLocationTryFrom (blockLocationToU64 4096 (2 ^ 12)) = Except.ok (4096, 2 ^ 12) ∧
      blockLocationTryFrom 5 = Except.error ⟨0, 32⟩ := by
  constructor
  · exact block_location_roundtrip.1 4096 12 (by norm_num) (by norm_num)
      (by norm_num) (by norm_num)
  · have h := block_location_roundtrip.2 5 (Or.inr (Or.inl (by norm_num)))
    simpa [u64Size] using h

end LayerFile
